import Mathlib

/-!
# Shallow embedding of the `timeit` Go package

The package maintains running timing statistics (Welford's online
algorithm) over `time.Duration` samples.  `time.Duration` and the sample
counter are Go `int64` values; we model them as unbounded `Int`, which is
faithful to the Go arithmetic in the absence of 64-bit overflow (the spec
itself requires arithmetic "wide enough to avoid overflow").  Go's integer
division truncates toward zero, which is `Int.tdiv` (not Lean's `/`, which
is Euclidean).
-/

/-- Go type `MarshalFlags uint8`: a bitmask of derived fields to marshal. -/
abbrev MarshalFlags := Nat

/-- Go constant `Variance MarshalFlags = 1 << iota` (iota = 0). -/
def MarshalFlags.Variance : MarshalFlags := 1

/-- Go constant `SampleVariance` (1 << 1). -/
def MarshalFlags.SampleVariance : MarshalFlags := 2

/-- Go constant `StdDev` (1 << 2). -/
def MarshalFlags.StdDev : MarshalFlags := 4

/-- Go constant `SampleStdDev` (1 << 3). -/
def MarshalFlags.SampleStdDev : MarshalFlags := 8

/-- Go struct `Data`: the timing accumulator.  Field order and names follow
the source (`Samples int64`, `Mean`, `Max`, `Min time.Duration`,
`Flags MarshalFlags`, `Next *Data`, `m2 time.Duration`).  The `Next`
pointer is an optional chained accumulator; Go pointer structures reachable
by `Update`'s recursion are finite chains, modeled by the nested
inductive. -/
inductive Data : Type where
  | mk (Samples : Int) (Mean : Int) (Max : Int) (Min : Int)
      (Flags : MarshalFlags) (Next : Option Data) (m2 : Int) : Data

/-- Field accessor for `Data.Samples`. -/
def Data.Samples : Data → Int
  | .mk s _ _ _ _ _ _ => s

/-- Field accessor for `Data.Mean`. -/
def Data.Mean : Data → Int
  | .mk _ mean _ _ _ _ _ => mean

/-- Field accessor for `Data.Max`. -/
def Data.Max : Data → Int
  | .mk _ _ mx _ _ _ _ => mx

/-- Field accessor for `Data.Min`. -/
def Data.Min : Data → Int
  | .mk _ _ _ mn _ _ _ => mn

/-- Field accessor for `Data.Flags`. -/
def Data.Flags : Data → MarshalFlags
  | .mk _ _ _ _ flags _ _ => flags

/-- Field accessor for `Data.Next`. -/
def Data.Next : Data → Option Data
  | .mk _ _ _ _ _ next _ => next

/-- Field accessor for the unexported `Data.m2`. -/
def Data.m2 : Data → Int
  | .mk _ _ _ _ _ _ m2 => m2

/-- Go `func (d *Data) Update(sample time.Duration)`: fold one sample into
the accumulator, then forward the same sample to the chained accumulator
when `Next != nil`.  The statement order of the source is kept: min/max
first (tested against the pre-increment `Samples`), then the count, mean
(truncating division), and `m2` updates, then the recursive call. -/
def Data.Update : Data → Int → Data
  | .mk samples mean mx mn flags next m2, sample =>
    let mn' := if samples = 0 ∨ sample < mn then sample else mn
    let mx' := if samples = 0 ∨ sample > mx then sample else mx
    let samples' := samples + 1
    let delta1 := sample - mean
    let mean' := mean + Int.tdiv delta1 samples'
    let delta2 := sample - mean'
    let m2' := m2 + delta1 * delta2
    let next' := match next with
      | none => none
      | some nd => some (nd.Update sample)
    .mk samples' mean' mx' mn' flags next' m2'

/-- Go `func (d *Data) Variance() time.Duration`: `m2 / Samples` with
truncating division, `0` when `Samples <= 0`.  Total: cannot fail. -/
def Data.Variance (d : Data) : Int :=
  if d.Samples ≤ 0 then 0 else Int.tdiv d.m2 d.Samples

/-- Go `func (d *Data) SampleVariance() time.Duration`: `m2 / (Samples-1)`
with truncating division, `0` when `Samples <= 1`.  Total: cannot fail. -/
def Data.SampleVariance (d : Data) : Int :=
  if d.Samples ≤ 1 then 0 else Int.tdiv d.m2 (d.Samples - 1)

/-- Model of Go `time.Duration(math.Sqrt(float64(x)))` for non-negative
`x`: IEEE-754 `sqrt` is correctly rounded, hence exact on perfect squares
whose root is exactly representable (in particular all perfect squares
below 2^53), and Go's float-to-int conversion truncates toward zero, so on
that domain the composite coincides with the integer square root. -/
def sqrtTrunc (x : Int) : Int := (Nat.sqrt x.toNat : Int)

/-- Go `func (d *Data) StdDev() time.Duration`. -/
def Data.StdDev (d : Data) : Int := sqrtTrunc d.Variance

/-- Go `func (d *Data) SampleStdDev() time.Duration`. -/
def Data.SampleStdDev (d : Data) : Int := sqrtTrunc d.SampleVariance

/-- Go struct `dataMarshaled`: the wire-format record.  Every field is a
pointer in the source (`nil` = absent), modeled by `Option`. -/
structure dataMarshaled where
  Samples : Option Int
  Mean : Option Int
  Max : Option Int
  Min : Option Int
  Variance : Option Int
  SampleVariance : Option Int
  StdDev : Option Int
  SampleStdDev : Option Int

/-- Go `func (dm *dataMarshaled) toData(d *Data)`: copy the present basic
fields onto `d`, then reconstruct `m2` from the derived fields in the
source's fixed order — `SampleStdDev` (guarded by `Samples > 1`), `StdDev`,
`SampleVariance` (guarded), `Variance` — each present field overwriting the
previous `m2` and OR-ing its flag bit into `Flags` unconditionally. -/
def dataMarshaled.toData (dm : dataMarshaled) (d : Data) : Data :=
  match d with
  | .mk dSamples dMean dMax dMin dFlags dNext dm2 =>
    let samples := dm.Samples.getD dSamples
    let mean := dm.Mean.getD dMean
    let mx := dm.Max.getD dMax
    let mn := dm.Min.getD dMin
    let fm : MarshalFlags × Int := (dFlags, dm2)
    let fm := match dm.SampleStdDev with
      | some v => (fm.1 ||| MarshalFlags.SampleStdDev,
          if 1 < samples then v * v * (samples - 1) else fm.2)
      | none => fm
    let fm := match dm.StdDev with
      | some v => (fm.1 ||| MarshalFlags.StdDev, v * v * samples)
      | none => fm
    let fm := match dm.SampleVariance with
      | some v => (fm.1 ||| MarshalFlags.SampleVariance,
          if 1 < samples then v * (samples - 1) else fm.2)
      | none => fm
    let fm := match dm.Variance with
      | some v => (fm.1 ||| MarshalFlags.Variance, v * samples)
      | none => fm
    .mk samples mean mx mn fm.1 dNext fm.2

/-- Go `func (d *Data) UnmarshalJSON(text []byte) error`, with the external
`encoding/json` decoder abstracted by its outcome: `isNull` models
`string(text) == "null"`, and `decoded` is the result of
`json.Unmarshal(text, dm)` (`none` = decoding error, as for a
type-mismatched field).  The pair returned is the accumulator state after
the call and whether an error was returned; on the error path the source
returns before `toData`, leaving `d` untouched. -/
def Data.UnmarshalJSON (d : Data) (isNull : Bool) (decoded : Option dataMarshaled) :
    Data × Bool :=
  if isNull then (d, false)
  else
    match decoded with
    | none => (d, true)
    | some dm => (dm.toData d, false)

/-- Go `func (d *Data) UnmarshalYAML(unmarshal func(interface{}) error) error`,
with the caller-supplied `unmarshal` function abstracted by its outcome
(`none` = decoding error).  On the error path the source returns before
`toData`, leaving `d` untouched. -/
def Data.UnmarshalYAML (d : Data) (decoded : Option dataMarshaled) :
    Data × Bool :=
  match decoded with
  | none => (d, true)
  | some dm => (dm.toData d, false)

/-- A freshly constructed (all-zero) accumulator: Go `&Data{}`. -/
def freshData : Data := .mk 0 0 0 0 0 none 0

/-- Fold a finite sequence of samples into a fresh accumulator, one
`Update` per sample, in order. -/
def foldSamples (l : List Int) : Data := l.foldl Data.Update freshData

/-! ## Helper lemmas about `Update` and folds -/

theorem update_eq (samples mean mx mn : Int) (flags : MarshalFlags) (next : Option Data)
    (m2 s : Int) :
    (Data.mk samples mean mx mn flags next m2).Update s
      = Data.mk (samples + 1)
          (mean + Int.tdiv (s - mean) (samples + 1))
          (if samples = 0 ∨ s > mx then s else mx)
          (if samples = 0 ∨ s < mn then s else mn)
          flags (next.map fun nd => nd.Update s)
          (m2 + (s - mean) * (s - (mean + Int.tdiv (s - mean) (samples + 1)))) := by
  cases next <;> rfl

theorem update_Samples (d : Data) (s : Int) : (d.Update s).Samples = d.Samples + 1 := by
  cases d with | mk samples mean mx mn flags next m2 => rw [update_eq]; rfl

theorem update_Min (d : Data) (s : Int) :
    (d.Update s).Min = if d.Samples = 0 ∨ s < d.Min then s else d.Min := by
  cases d with | mk samples mean mx mn flags next m2 => rw [update_eq]; rfl

theorem update_Max (d : Data) (s : Int) :
    (d.Update s).Max = if d.Samples = 0 ∨ s > d.Max then s else d.Max := by
  cases d with | mk samples mean mx mn flags next m2 => rw [update_eq]; rfl

theorem update_m2_eq (d : Data) (s : Int) :
    (d.Update s).m2
      = d.m2 + (s - d.Mean) * ((s - d.Mean) - Int.tdiv (s - d.Mean) (d.Samples + 1)) := by
  cases d with
  | mk samples mean mx mn flags next m2 =>
    rw [update_eq]
    show m2 + (s - mean) * (s - (mean + Int.tdiv (s - mean) (samples + 1)))
        = m2 + (s - mean) * ((s - mean) - Int.tdiv (s - mean) (samples + 1))
    ring

theorem update_Min_of_pos (d : Data) (s : Int) (h : 0 < d.Samples) :
    (d.Update s).Min = min d.Min s := by
  rw [update_Min]
  rcases lt_or_ge s d.Min with hlt | hge
  · rw [if_pos (Or.inr hlt), min_eq_right hlt.le]
  · rw [if_neg (by push_neg; exact ⟨by omega, hge⟩), min_eq_left hge]

theorem update_Max_of_pos (d : Data) (s : Int) (h : 0 < d.Samples) :
    (d.Update s).Max = max d.Max s := by
  rw [update_Max]
  rcases lt_or_ge d.Max s with hlt | hge
  · rw [if_pos (Or.inr hlt), max_eq_right hlt.le]
  · rw [if_neg (by push_neg; exact ⟨by omega, hge⟩), max_eq_left hge]

theorem foldl_update_Samples (l : List Int) (d : Data) :
    (l.foldl Data.Update d).Samples = d.Samples + l.length := by
  induction l generalizing d with
  | nil => simp
  | cons x xs ih =>
    rw [List.foldl_cons, ih, update_Samples]
    simp only [List.length_cons]
    push_cast
    ring

theorem foldl_update_Min (l : List Int) (d : Data) (hd : 0 < d.Samples) :
    (l.foldl Data.Update d).Min = l.foldl min d.Min := by
  induction l generalizing d with
  | nil => rfl
  | cons x xs ih =>
    rw [List.foldl_cons, List.foldl_cons,
      ih (d.Update x) (by rw [update_Samples]; omega), update_Min_of_pos d x hd]

theorem foldl_update_Max (l : List Int) (d : Data) (hd : 0 < d.Samples) :
    (l.foldl Data.Update d).Max = l.foldl max d.Max := by
  induction l generalizing d with
  | nil => rfl
  | cons x xs ih =>
    rw [List.foldl_cons, List.foldl_cons,
      ih (d.Update x) (by rw [update_Samples]; omega), update_Max_of_pos d x hd]

theorem foldl_min_le_init (l : List Int) (a : Int) : l.foldl min a ≤ a := by
  induction l generalizing a with
  | nil => exact le_refl a
  | cons x xs ih => exact le_trans (ih (min a x)) (min_le_left a x)

theorem foldl_min_le_mem (l : List Int) (a : Int) : ∀ x ∈ l, l.foldl min a ≤ x := by
  induction l generalizing a with
  | nil => intro x hx; cases hx
  | cons y ys ih =>
    intro x hx
    rcases List.mem_cons.mp hx with rfl | hx
    · exact le_trans (foldl_min_le_init ys (min a x)) (min_le_right a x)
    · exact ih (min a y) x hx

theorem foldl_min_mem (l : List Int) (a : Int) : l.foldl min a ∈ a :: l := by
  induction l generalizing a with
  | nil => exact List.mem_singleton.mpr rfl
  | cons y ys ih =>
    rw [List.foldl_cons]
    rcases List.mem_cons.mp (ih (min a y)) with h | h
    · rcases min_choice a y with hc | hc
      · rw [h, hc]; exact List.mem_cons_self _ _
      · rw [h, hc]; exact List.mem_cons_of_mem _ (List.mem_cons_self _ _)
    · exact List.mem_cons_of_mem _ (List.mem_cons_of_mem _ h)

theorem foldl_max_ge_init (l : List Int) (a : Int) : a ≤ l.foldl max a := by
  induction l generalizing a with
  | nil => exact le_refl a
  | cons x xs ih => exact le_trans (le_max_left a x) (ih (max a x))

theorem foldl_max_ge_mem (l : List Int) (a : Int) : ∀ x ∈ l, x ≤ l.foldl max a := by
  induction l generalizing a with
  | nil => intro x hx; cases hx
  | cons y ys ih =>
    intro x hx
    rcases List.mem_cons.mp hx with rfl | hx
    · exact le_trans (le_max_right a x) (foldl_max_ge_init ys (max a x))
    · exact ih (max a y) x hx

theorem foldl_max_mem (l : List Int) (a : Int) : l.foldl max a ∈ a :: l := by
  induction l generalizing a with
  | nil => exact List.mem_singleton.mpr rfl
  | cons y ys ih =>
    rw [List.foldl_cons]
    rcases List.mem_cons.mp (ih (max a y)) with h | h
    · rcases max_choice a y with hc | hc
      · rw [h, hc]; exact List.mem_cons_self _ _
      · rw [h, hc]; exact List.mem_cons_of_mem _ (List.mem_cons_self _ _)
    · exact List.mem_cons_of_mem _ (List.mem_cons_of_mem _ h)

theorem tdiv_self_sign (a n : Int) (hn : 1 ≤ n) : 0 ≤ a * (a - Int.tdiv a n) := by
  rcases le_or_lt 0 a with ha | ha
  · have h1 : 0 ≤ Int.tdiv a n := Int.tdiv_nonneg ha (by omega)
    have h2 : Int.tdiv a n ≤ a := by
      rw [Int.tdiv_eq_ediv ha (by omega)]
      exact Int.ediv_le_self n ha
    exact mul_nonneg ha (by omega)
  · have ha' : 0 ≤ -a := by omega
    have h1 : 0 ≤ Int.tdiv (-a) n := Int.tdiv_nonneg ha' (by omega)
    have h2 : Int.tdiv (-a) n ≤ -a := by
      rw [Int.tdiv_eq_ediv ha' (by omega)]
      exact Int.ediv_le_self n ha'
    have h3 : Int.tdiv (-a) n = -Int.tdiv a n := Int.neg_tdiv a n
    have h4 : 0 ≤ (-a) * (-(a - Int.tdiv a n)) := mul_nonneg (by omega) (by omega)
    calc (0:Int) ≤ (-a) * (-(a - Int.tdiv a n)) := h4
      _ = a * (a - Int.tdiv a n) := by ring

/-! ## Claim theorems -/

/-- C1: from a fresh accumulator, `Update 50` then `Update 25` yields
exactly `Samples=2, Mean=38, Max=50, Min=25, m2=325`; and `Update 50` then
`Update 75` yields `Samples=2, Mean=62, Max=75, Min=50, m2=325`, following
the source's evaluation order with division truncating toward zero. -/
theorem update_fixed_point_examples :
    (freshData.Update 50).Update 25 = Data.mk 2 38 50 25 0 none 325 ∧
    (freshData.Update 50).Update 75 = Data.mk 2 62 75 50 0 none 325 :=
  ⟨rfl, rfl⟩

/-- C2: for every accumulator state, `Variance` is `m2` over `Samples`
under truncating division (`0` when no samples), and `SampleVariance` is
`m2` over `Samples - 1` (`0` whenever `Samples ≤ 1`); both are total
functions, so neither can fail. -/
theorem variance_sampleVariance_spec (d : Data) :
    (d.Samples = 0 → d.Variance = 0) ∧
    (0 < d.Samples → d.Variance = Int.tdiv d.m2 d.Samples) ∧
    (d.Samples ≤ 1 → d.SampleVariance = 0) ∧
    (1 < d.Samples → d.SampleVariance = Int.tdiv d.m2 (d.Samples - 1)) := by
  refine ⟨fun h => ?_, fun h => ?_, fun h => ?_, fun h => ?_⟩
  · rw [Data.Variance, if_pos (by omega)]
  · rw [Data.Variance, if_neg (by omega)]
  · rw [Data.SampleVariance, if_pos h]
  · rw [Data.SampleVariance, if_neg (by omega)]

/-- Witness for C2 at concrete states. -/
theorem variance_sampleVariance_spec_witness :
    Data.Variance (Data.mk 0 0 0 0 0 none 50) = 0 ∧
    Data.Variance (Data.mk 2 0 0 0 0 none 50) = Int.tdiv 50 2 ∧
    Data.SampleVariance (Data.mk 1 0 0 0 0 none 50) = 0 ∧
    Data.SampleVariance (Data.mk 3 0 0 0 0 none 50) = Int.tdiv 50 2 :=
  ⟨(variance_sampleVariance_spec (Data.mk 0 0 0 0 0 none 50)).1 rfl,
   (variance_sampleVariance_spec (Data.mk 2 0 0 0 0 none 50)).2.1 (by decide),
   (variance_sampleVariance_spec (Data.mk 1 0 0 0 0 none 50)).2.2.1 (by decide),
   (variance_sampleVariance_spec (Data.mk 3 0 0 0 0 none 50)).2.2.2 (by decide)⟩

/-- C3: importing a record with all four derived fields applies the
reconstructions in the fixed order (last applied, `variance`, wins:
`m2 = variance × samples`), ORs all four flag bits into `Flags` regardless,
skips the `sample_std_dev` (and `sample_variance`) formulas when
`Samples ≤ 1`, and on the record `samples=3, mean=50, max=75, min=25,
variance=416, sample_variance=625, std_dev=20, sample_std_dev=25` yields
`m2 = 1248`, not 1250. -/
theorem toData_reconstruction (s mean mx mn v sv sd ssd : Int) (d : Data) :
    ((dataMarshaled.mk (some s) (some mean) (some mx) (some mn)
        (some v) (some sv) (some sd) (some ssd)).toData d).m2 = v * s ∧
    ((dataMarshaled.mk (some s) (some mean) (some mx) (some mn)
        (some v) (some sv) (some sd) (some ssd)).toData d).Flags = d.Flags ||| 15 ∧
    ((dataMarshaled.mk (some 1) none none none
        none none none (some ssd)).toData d).m2 = d.m2 ∧
    ((dataMarshaled.mk (some 1) none none none
        none (some sv) none none).toData d).m2 = d.m2 ∧
    ((dataMarshaled.mk (some 3) (some 50) (some 75) (some 25)
        (some 416) (some 625) (some 20) (some 25)).toData freshData
      = Data.mk 3 50 75 25 15 none 1248) := by
  refine ⟨?_, ?_, ?_, ?_, rfl⟩
  · cases d with | mk a b c e f g h => rfl
  · cases d with | mk a b c e f g h =>
      show (((f ||| 8) ||| 4) ||| 2) ||| 1 = f ||| 15
      rw [Nat.or_assoc, Nat.or_assoc, Nat.or_assoc]
      congr 1
  · cases d with | mk a b c e f g h => rfl
  · cases d with | mk a b c e f g h => rfl

/-- C4: folding any finite sequence of samples into a fresh accumulator
gives `Samples` equal to the sequence length, and (for a non-empty
sequence) `Min`/`Max` equal to the literal minimum/maximum of the
sequence. -/
theorem fold_count_min_max (l : List Int) :
    (foldSamples l).Samples = (l.length : Int) ∧
    (l ≠ [] →
      ((foldSamples l).Min ∈ l ∧ ∀ x ∈ l, (foldSamples l).Min ≤ x) ∧
      ((foldSamples l).Max ∈ l ∧ ∀ x ∈ l, x ≤ (foldSamples l).Max)) := by
  constructor
  · rw [foldSamples, foldl_update_Samples]
    show 0 + (l.length : Int) = l.length
    ring
  · intro hne
    cases l with
    | nil => exact absurd rfl hne
    | cons x xs =>
      have hS : (0:Int) < (freshData.Update x).Samples := by
        rw [update_Samples]; decide
      have hMinx : (freshData.Update x).Min = x := by
        rw [update_Min]; exact if_pos (Or.inl rfl)
      have hMaxx : (freshData.Update x).Max = x := by
        rw [update_Max]; exact if_pos (Or.inl rfl)
      have hmin : (foldSamples (x :: xs)).Min = xs.foldl min x := by
        rw [foldSamples, List.foldl_cons, foldl_update_Min xs _ hS, hMinx]
      have hmax : (foldSamples (x :: xs)).Max = xs.foldl max x := by
        rw [foldSamples, List.foldl_cons, foldl_update_Max xs _ hS, hMaxx]
      refine ⟨⟨?_, ?_⟩, ?_, ?_⟩
      · rw [hmin]; exact foldl_min_mem xs x
      · intro y hy
        rw [hmin]
        rcases List.mem_cons.mp hy with rfl | hy
        · exact foldl_min_le_init xs y
        · exact foldl_min_le_mem xs x y hy
      · rw [hmax]; exact foldl_max_mem xs x
      · intro y hy
        rw [hmax]
        rcases List.mem_cons.mp hy with rfl | hy
        · exact foldl_max_ge_init xs y
        · exact foldl_max_ge_mem xs x y hy

/-- Witness for C4 on the concrete sequence `[50, 25, 75]`. -/
theorem fold_count_min_max_witness :
    (foldSamples [50, 25, 75]).Samples = 3 ∧
    (foldSamples [50, 25, 75]).Min ∈ [50, 25, 75] ∧
    (foldSamples [50, 25, 75]).Max ∈ [50, 25, 75] :=
  ⟨(fold_count_min_max [50, 25, 75]).1,
   (((fold_count_min_max [50, 25, 75]).2 (by decide)).1).1,
   (((fold_count_min_max [50, 25, 75]).2 (by decide)).2).1⟩

/-- C5: when `Next` is set, `Update` forwards the identical sample to the
chained accumulator; folding one sample into a fresh accumulator whose
`Next` is also fresh leaves both in identical post-fold statistical
state. -/
theorem update_chained (samples mean mx mn : Int) (flags : MarshalFlags) (n : Data)
    (m2 s : Int) :
    ((Data.mk samples mean mx mn flags (some n) m2).Update s).Next = some (n.Update s) ∧
    ((Data.mk 0 0 0 0 0 (some freshData) 0).Update 50
      = Data.mk 1 50 50 50 0 (some (Data.mk 1 50 50 50 0 none 0)) 0) :=
  ⟨rfl, rfl⟩

/-- C7: when the (abstracted) decoder fails on malformed input, both
unmarshal operations report the error and return the target accumulator
completely unmodified. -/
theorem unmarshal_error_unmodified (d : Data) :
    d.UnmarshalJSON false none = (d, true) ∧
    d.UnmarshalYAML none = (d, true) :=
  ⟨rfl, rfl⟩

/-- C8: from any state with a non-negative sample count (the spec's data
model) and `m2 ≥ 0`, `Update` never decreases `m2`, hence keeps it
non-negative: the added product `delta1 * delta2` is non-negative because
truncating division never overshoots. -/
theorem update_m2_monotone (d : Data) (s : Int) (hs : 0 ≤ d.Samples) (hm : 0 ≤ d.m2) :
    d.m2 ≤ (d.Update s).m2 ∧ 0 ≤ (d.Update s).m2 := by
  have key := tdiv_self_sign (s - d.Mean) (d.Samples + 1) (by omega)
  rw [update_m2_eq]
  constructor <;> nlinarith [key]

/-- Witness for C8 at a concrete state and sample. -/
theorem update_m2_monotone_witness :
    Data.m2 (Data.mk 1 50 50 50 0 none 0) ≤ ((Data.mk 1 50 50 50 0 none 0).Update 25).m2 ∧
    0 ≤ ((Data.mk 1 50 50 50 0 none 0).Update 25).m2 :=
  update_m2_monotone (Data.mk 1 50 50 50 0 none 0) 25 (by decide) (by decide)

/-- C9: `StdDev` is the truncation of the square root of `Variance`; with
`Samples = 1` and `m2 = 64` it returns exactly `8`, and with no samples it
returns `0` whatever the other fields hold. -/
theorem stdDev_spec (mean mx mn : Int) (flags : MarshalFlags) (next : Option Data)
    (m2 : Int) :
    (Data.mk 0 mean mx mn flags next m2).StdDev = 0 ∧
    (Data.mk 1 0 0 0 0 none 64).StdDev = 8 ∧
    (Data.mk 1 0 0 0 0 none 64).StdDev = sqrtTrunc ((Data.mk 1 0 0 0 0 none 64).Variance) := by
  refine ⟨rfl, ?_, rfl⟩
  show ((Nat.sqrt 64 : Nat) : Int) = 8
  exact_mod_cast Nat.sqrt_eq 8

/-- C10: `Variance` returns `0` for every `Samples ≤ 0` (negative counts
included) and `SampleVariance` returns `0` for every `Samples ≤ 1`, so the
division is never taken with a non-positive divisor; a negative `Samples`
is reachable through import, as the concrete record with `samples = -5`
shows. -/
theorem variance_nonpositive_guard (d : Data) :
    (d.Samples ≤ 0 → d.Variance = 0) ∧
    (d.Samples ≤ 1 → d.SampleVariance = 0) ∧
    ((dataMarshaled.mk (some (-5)) none none none
        none none none none).toData freshData).Samples = -5 ∧
    ((dataMarshaled.mk (some (-5)) none none none
        none none none none).toData freshData).Variance = 0 ∧
    ((dataMarshaled.mk (some (-5)) none none none
        none none none none).toData freshData).SampleVariance = 0 := by
  refine ⟨fun h => ?_, fun h => ?_, rfl, rfl, rfl⟩
  · rw [Data.Variance, if_pos h]
  · rw [Data.SampleVariance, if_pos h]

/-- Witness for C10 at a concrete negative-count state. -/
theorem variance_nonpositive_guard_witness :
    Data.Variance (Data.mk (-5) 0 0 0 0 none 99) = 0 ∧
    Data.SampleVariance (Data.mk (-5) 0 0 0 0 none 99) = 0 :=
  ⟨(variance_nonpositive_guard (Data.mk (-5) 0 0 0 0 none 99)).1 (by decide),
   (variance_nonpositive_guard (Data.mk (-5) 0 0 0 0 none 99)).2.1 (by decide)⟩
